import Mathlib

/-!
Shallow embedding of `src/reverse_complement.rs` (benchmarksgame-rs).

Bytes are modelled as `Nat` (values < 256 where it matters), byte slices as
`List Nat`.  The in-place mutation of the Rust code is modelled by functions
returning the new contents of the mutated regions, laid out in the same order
as the underlying buffer.  A Rust panic (the only fallible operation here is
the `seq.len() - 1` underflow on an empty slice, followed by an
out-of-bounds slice index) is modelled as `Option.none`.
-/

namespace RevComp

/-- Model of `Tables::computed_cpl8` (src/reverse_complement.rs:35-55):
the 8-bit complement table entry for byte `c`.  Byte literals spelled as
their ASCII codes; each arm is commented with the source characters. -/
def cpl8 (c : Nat) : Nat :=
  match c with
  | 65 | 97 => 84   -- b'A' | b'a' => b'T'
  | 67 | 99 => 71   -- b'C' | b'c' => b'G'
  | 71 | 103 => 67  -- b'G' | b'g' => b'C'
  | 84 | 116 => 65  -- b'T' | b't' => b'A'
  | 85 | 117 => 65  -- b'U' | b'u' => b'A'
  | 77 | 109 => 75  -- b'M' | b'm' => b'K'
  | 82 | 114 => 89  -- b'R' | b'r' => b'Y'
  | 87 | 119 => 87  -- b'W' | b'w' => b'W'
  | 83 | 115 => 83  -- b'S' | b's' => b'S'
  | 89 | 121 => 82  -- b'Y' | b'y' => b'R'
  | 75 | 107 => 77  -- b'K' | b'k' => b'M'
  | 86 | 118 => 66  -- b'V' | b'v' => b'B'
  | 72 | 104 => 68  -- b'H' | b'h' => b'D'
  | 68 | 100 => 72  -- b'D' | b'd' => b'H'
  | 66 | 98 => 86   -- b'B' | b'b' => b'V'
  | 78 | 110 => 78  -- b'N' | b'n' => b'N'
  | i => i          -- i => i

/-- Model of the `table16` construction in `Tables::new`
(src/reverse_complement.rs:27-31): `table16[i] = table8[i & 255] << 8 |
table8[i >> 8]`.  Since `table8` entries fit in a byte, shift-then-or equals
`table8[i % 256] * 256 + table8[i / 256]`; the word value `w = b0 + 256*b1`
models the little-endian in-memory pair `(b0, b1)`. -/
def cpl16 (i : Nat) : Nat :=
  cpl8 (i % 256) * 256 + cpl8 (i / 256)

/-- Little-endian reinterpretation of a byte list as 16-bit words, covering
the first `2 * (length / 2)` bytes (model of `as_u16_slice`,
src/reverse_complement.rs:74-76). -/
def toWords : List Nat → List Nat
  | b0 :: b1 :: rest => (b0 + 256 * b1) :: toWords rest
  | _ => []

/-- Inverse of `toWords`: lay a list of 16-bit words back out as bytes,
little-endian. -/
def ofWords : List Nat → List Nat
  | w :: rest => w % 256 :: w / 256 :: ofWords rest
  | [] => []

/-- The mathematical reverse complement of a byte list: complement every
byte and reverse the order. -/
def revcomp (l : List Nat) : List Nat :=
  (l.map cpl8).reverse

/-- Model of `reverse_complement_chunk` (src/reverse_complement.rs:101-118).
Both arguments are disjoint regions of the buffer; the result is the pair of
new contents of those regions.  The `for` loop swap-with-complement of
`left16[i]` and `right16[len-1-i]` (for `i < min` of the word counts) is
rendered as the take/drop/reverse expressions `lW2`/`rW2`; the final
`if let (Some(x), Some(y))` single-byte swap is the `match`. -/
def reverse_complement_chunk (left right : List Nat) : List Nat × List Nat :=
  let u16_len := left.length / 2 * 2
  let lW := toWords (left.take u16_len)
  let lRest := left.drop u16_len
  let n := min right.length u16_len
  let rRest := right.take (right.length - n)
  let rSub := right.drop (right.length - n)
  let rW := toWords rSub
  let rTail := rSub.drop (rSub.length / 2 * 2)
  let p := min lW.length rW.length
  let lW2 := ((rW.drop (rW.length - p)).map cpl16).reverse ++ lW.drop p
  let rW2 := rW.take (rW.length - p) ++ ((lW.take p).map cpl16).reverse
  match lRest, rRest with
  | x :: ls, y :: rs => (ofWords lW2 ++ cpl8 y :: ls, cpl8 x :: rs ++ ofWords rW2 ++ rTail)
  | _, _ => (ofWords lW2 ++ lRest, rRest ++ ofWords rW2 ++ rTail)

/-- Model of the sequential `while` loop of `reverse_complement_left_right`
(src/reverse_complement.rs:126-155).  `left` and `right` are the two
converging regions; `t` is `trailing_len`.  `split_off_left n` is
`take`/`drop` from the front, `split_off_right n` is `drop`/`take` measured
from the back (both capped by the length, as in the source).  The result is
the pair of new contents of the two regions, in buffer order. -/
def rcLoop (t : Nat) (left right : List Nat) : List Nat × List Nat :=
  if left = [] ∧ right = [] then ([], [])
  else
    -- Process the chunk up to the newline in `right`.
    let a := left.take t
    let lr1 := left.drop t
    let bn := min right.length t
    let rr1 := right.take (right.length - bn)
    let b := right.drop (right.length - bn)
    -- If there is an odd number of bytes, the extra one will be on the right.
    let midR := if a.length < b.length then (b.take 1).map cpl8 else []
    let b2 := if a.length < b.length then b.drop 1 else b
    let ab := reverse_complement_chunk a b2
    -- Skip the newline in `right`.
    let nl1 := min rr1.length 1
    let nlR := rr1.drop (rr1.length - nl1)
    let rr2 := rr1.take (rr1.length - nl1)
    -- Process the chunk up to the newline in `left`.
    let leading := 61 - 1 - t
    let c := lr1.take leading
    let lr2 := lr1.drop leading
    let dn := min rr2.length leading
    let rr3 := rr2.take (rr2.length - dn)
    let d := rr2.drop (rr2.length - dn)
    -- If there is an odd number of bytes, the extra one will be on the left.
    let midL := if d.length < c.length then (c.drop (c.length - 1)).map cpl8 else []
    let c2 := if d.length < c.length then c.take (c.length - 1) else c
    let cd := reverse_complement_chunk c2 d
    -- Skip the newline in `left`.
    let nlL := lr2.take 1
    let lr3 := lr2.drop 1
    let rest := rcLoop t lr3 rr3
    (ab.1 ++ cd.1 ++ midL ++ nlL ++ rest.1,
     rest.2 ++ cd.2 ++ nlR ++ midR ++ ab.2)
termination_by left.length + right.length
decreasing_by
  simp only [List.length_take, List.length_drop]
  have hlr : left ≠ [] ∨ right ≠ [] := by tauto
  rcases hlr with h | h
  · have := List.length_pos.mpr h
    omega
  · have := List.length_pos.mpr h
    omega

/-- Model of `reverse_complement_left_right` (src/reverse_complement.rs:120-165)
with `SEQUENTIAL_SIZE = 2048` inlined.  The `rayon::join` of the two
recursive calls on disjoint regions is modelled by computing both results and
reassembling them in buffer order. -/
def reverse_complement_left_right (t : Nat) (left right : List Nat) :
    List Nat × List Nat :=
  if left.length ≤ 2048 then rcLoop t left right
  else
    let line_count := (left.length + 61 - 1) / 61
    let mid := line_count / 2 * 61  -- Split on a whole number of lines.
    let left1 := left.take mid
    let leftR := left.drop mid
    let rn := min right.length mid
    let right1 := right.drop (right.length - rn)
    let rightR := right.take (right.length - rn)
    let pa := reverse_complement_left_right t leftR rightR
    let pb := reverse_complement_left_right t left1 right1
    (pb.1 ++ pa.1, pa.2 ++ pb.2)
termination_by left.length
decreasing_by
  · simp only [List.length_drop]
    omega
  · simp only [List.length_take]
    omega

/-- Model of `reverse_complement` (src/reverse_complement.rs:167-174).
`seq.len() - 1` underflows on an empty slice and the subsequent slicing
panics; this is modelled by `none`.  Otherwise the final byte of `seq` is
dropped from the working span (and emitted unchanged), `trailing_len` is
`len % LINE_LEN`, and the span is split at its midpoint. -/
def reverse_complement (seq : List Nat) : Option (List Nat) :=
  if seq = [] then none
  else
    let len := seq.length - 1
    let s := seq.take len  -- Drop the last newline
    let t := len % 61
    let pr := reverse_complement_left_right t (s.take (len / 2)) (s.drop (len / 2))
    some (pr.1 ++ pr.2 ++ seq.drop len)

/-- Model of `memchr::memchr`: index of the first occurrence of byte `c`. -/
def memchr (c : Nat) : List Nat → Option Nat
  | [] => none
  | x :: xs => if x = c then some 0 else (memchr c xs).map (· + 1)

theorem memchr_some_lt {c i : Nat} : ∀ {l : List Nat}, memchr c l = some i → i < l.length := by
  intro l
  induction l generalizing i with
  | nil => intro h; simp [memchr] at h
  | cons x xs ih =>
    intro h
    simp only [memchr] at h
    split at h
    · simp at h
      simp
      omega
    · simp only [Option.map_eq_some'] at h
      obtain ⟨j, hj, rfl⟩ := h
      have := ih hj
      simp
      omega

/-- Model of `split_and_reverse` (src/reverse_complement.rs:180-194) composed
with the final `write_all` of `main`: returns the full transformed buffer, or
`none` if processing panicked.  The first `memchr(b'\n')` skips the header
line; the next `memchr(b'>')` bounds the current record's sequence span. -/
def split_and_reverse (data : List Nat) : Option (List Nat) :=
  match h10 : memchr 10 data with
  | none => some data
  | some i =>
    let pre := data.take (i + 1)
    let rest := data.drop (i + 1)
    match memchr 62 rest with
    | none => (reverse_complement rest).map (fun r => pre ++ r)
    | some j =>
      let head := rest.take j
      let tail := rest.drop j
      match reverse_complement head, split_and_reverse tail with
      | some hd, some tl => some (pre ++ hd ++ tl)
      | _, _ => none
termination_by data.length
decreasing_by
  have := memchr_some_lt h10
  simp only [List.length_drop, List.length_take]
  omega

/-- Wrap a data list into newline-separated lines of 60 bytes (the final
line keeping the remaining 1..60 bytes); this is the layout of one record's
sequence span without its final newline, as described by the spec
(`W = 60`, `LINE_LEN = 61`). -/
def wrapJoin (D : List Nat) : List Nat :=
  if D.length ≤ 60 then D else D.take 60 ++ 10 :: wrapJoin (D.drop 60)
termination_by D.length
decreasing_by
  simp only [List.length_drop]
  omega

/-! ### Basic facts about the tables and word views -/

theorem cpl8_lt256 {b : Nat} (h : b < 256) : cpl8 b < 256 := by
  unfold cpl8
  split <;> omega

theorem revcomp_nil : revcomp [] = [] := rfl

theorem revcomp_append (u v : List Nat) :
    revcomp (u ++ v) = revcomp v ++ revcomp u := by
  simp [revcomp]

theorem revcomp_cons (x : Nat) (u : List Nat) :
    revcomp (x :: u) = revcomp u ++ [cpl8 x] := by
  simp [revcomp]

theorem revcomp_concat (u : List Nat) (x : Nat) :
    revcomp (u ++ [x]) = cpl8 x :: revcomp u := by
  simp [revcomp]

theorem revcomp_length (u : List Nat) : (revcomp u).length = u.length := by
  simp [revcomp]

theorem revcomp_lt256 {u : List Nat} (h : ∀ x ∈ u, x < 256) :
    ∀ x ∈ revcomp u, x < 256 := by
  intro x hx
  simp only [revcomp, List.mem_reverse, List.mem_map] at hx
  obtain ⟨y, hy, rfl⟩ := hx
  exact cpl8_lt256 (h y hy)

theorem toWords_length (l : List Nat) : (toWords l).length = l.length / 2 := by
  induction l using toWords.induct with
  | case1 b0 b1 rest ih => simp [toWords, ih]; omega
  | case2 l h => cases l with
    | nil => simp [toWords]
    | cons x xs =>
      cases xs with
      | nil => simp [toWords]
      | cons y ys => exact absurd rfl (h x y ys)

theorem ofWords_append (u v : List Nat) :
    ofWords (u ++ v) = ofWords u ++ ofWords v := by
  induction u with
  | nil => rfl
  | cons w ws ih => simp [ofWords, ih]

/-- Key byte-level reading of one 16-bit table lookup: on a packed pair
`(b0, b1)` (low byte `b0`), the result unpacks to the pair
`(cpl8 b1, cpl8 b0)` — both bytes complemented and their order reversed. -/
theorem ofWords_cpl16_pair {b0 b1 : Nat} (h0 : b0 < 256) (h1 : b1 < 256) :
    ofWords [cpl16 (b0 + 256 * b1)] = [cpl8 b1, cpl8 b0] := by
  have e0 : (b0 + 256 * b1) % 256 = b0 := by omega
  have e1 : (b0 + 256 * b1) / 256 = b1 := by omega
  have c0 : cpl8 b0 < 256 := cpl8_lt256 h0
  have c1 : cpl8 b1 < 256 := cpl8_lt256 h1
  simp only [ofWords, cpl16, e0, e1]
  have f0 : (cpl8 b0 * 256 + cpl8 b1) % 256 = cpl8 b1 := by omega
  have f1 : (cpl8 b0 * 256 + cpl8 b1) / 256 = cpl8 b0 := by omega
  rw [f0, f1]

/-- Unpacking the word-level swap loop: complement-and-reverse at the word
level, laid back out as bytes, is the byte-level reverse complement (for an
even-length byte list). -/
theorem ofWords_rev_cpl16 (l : List Nat) (he : l.length % 2 = 0)
    (hb : ∀ x ∈ l, x < 256) :
    ofWords (((toWords l).map cpl16).reverse) = revcomp l := by
  induction l using toWords.induct with
  | case1 b0 b1 rest ih =>
    have hb0 : b0 < 256 := hb b0 (by simp)
    have hb1 : b1 < 256 := hb b1 (by simp)
    have hrest : ∀ x ∈ rest, x < 256 := fun x hx => hb x (by simp [hx])
    have herest : rest.length % 2 = 0 := by
      simp at he
      omega
    simp only [toWords, List.map_cons, List.reverse_cons, ofWords_append,
      ih herest hrest, ofWords_cpl16_pair hb0 hb1]
    rw [revcomp_cons, revcomp_cons]
    simp
  | case2 l h =>
    cases l with
    | nil => rfl
    | cons x xs =>
      cases xs with
      | nil => simp at he
      | cons y ys => exact absurd rfl (h x y ys)

/-- Correctness of `reverse_complement_chunk` on the shapes it is actually
called with (two equal-length chunks of bytes): each side receives the
reverse complement of the other. -/
theorem chunk_eq (a b : List Nat) (h : a.length = b.length)
    (ha : ∀ x ∈ a, x < 256) (hb : ∀ x ∈ b, x < 256) :
    reverse_complement_chunk a b = (revcomp b, revcomp a) := by
  unfold reverse_complement_chunk
  rcases Nat.even_or_odd a.length with he | ho
  · have hm : a.length % 2 = 0 := Nat.even_iff.mp he
    have hu : a.length / 2 * 2 = a.length := by omega
    have hWb : (toWords b).length = b.length / 2 := toWords_length b
    have hWa : (toWords a).length = a.length / 2 := toWords_length a
    simp only [hu]
    have hbn : b.length ⊓ a.length = b.length := by omega
    simp only [hbn, Nat.sub_self, List.take_zero, List.drop_zero]
    simp only [List.take_length, List.drop_length]
    have hp : (toWords a).length ⊓ (toWords b).length = (toWords b).length := by omega
    simp only [hp, Nat.sub_self, List.take_zero, List.drop_zero, List.nil_append]
    have e2 : List.drop (toWords b).length (toWords a) = [] := by
      apply List.drop_eq_nil_of_le
      omega
    have e3 : List.take (toWords b).length (toWords a) = toWords a := by
      apply List.take_of_length_le
      omega
    have e4 : List.drop (b.length / 2 * 2) b = [] := by
      apply List.drop_eq_nil_of_le
      omega
    simp only [e2, e3, e4, List.append_nil]
    rw [ofWords_rev_cpl16 b (by omega) hb, ofWords_rev_cpl16 a hm ha]
  · have hm : a.length % 2 = 1 := Nat.odd_iff.mp ho
    have hbn : b.length ⊓ a.length / 2 * 2 = a.length / 2 * 2 := by omega
    simp only [hbn]
    have hb1 : b.length - a.length / 2 * 2 = 1 := by omega
    simp only [hb1]
    have h1 : (a.drop (a.length / 2 * 2)).length = 1 := by
      simp
      omega
    have h2 : (b.take 1).length = 1 := by
      simp
      omega
    obtain ⟨x, hx⟩ := List.length_eq_one.mp h1
    obtain ⟨y, hy⟩ := List.length_eq_one.mp h2
    rw [hx, hy]
    have hWa : (toWords (a.take (a.length / 2 * 2))).length = a.length / 2 := by
      rw [toWords_length]
      simp
      omega
    have hWb : (toWords (b.drop 1)).length = a.length / 2 := by
      rw [toWords_length]
      simp
      omega
    rw [hWa, hWb]
    have hmin : a.length / 2 ⊓ a.length / 2 = a.length / 2 := by omega
    simp only [hmin, Nat.sub_self, List.take_zero, List.drop_zero, List.nil_append]
    have e2 : List.drop (a.length / 2) (toWords (List.take (a.length / 2 * 2) a)) = [] := by
      apply List.drop_eq_nil_of_le
      omega
    have e3 : List.take (a.length / 2) (toWords (List.take (a.length / 2 * 2) a))
        = toWords (List.take (a.length / 2 * 2) a) := by
      apply List.take_of_length_le
      omega
    have e4 : List.drop ((List.drop 1 b).length / 2 * 2) (List.drop 1 b) = [] := by
      apply List.drop_eq_nil_of_le
      simp
      omega
    simp only [e2, e3, e4, List.append_nil]
    have hta : ∀ z ∈ a.take (a.length / 2 * 2), z < 256 :=
      fun z hz => ha z (List.take_subset _ _ hz)
    have htb : ∀ z ∈ b.drop 1, z < 256 :=
      fun z hz => hb z (List.drop_subset _ _ hz)
    rw [ofWords_rev_cpl16 _ (by simp; omega) htb, ofWords_rev_cpl16 _ (by simp; omega) hta]
    have hbsplit : y :: b.drop 1 = b := by
      have : y :: b.drop 1 = [y] ++ b.drop 1 := rfl
      rw [this, ← hy]
      exact List.take_append_drop 1 b
    have hasplit : a.take (a.length / 2 * 2) ++ [x] = a := by
      rw [← hx]
      exact List.take_append_drop _ a
    simp only [Prod.mk.injEq]
    constructor
    · conv_rhs => rw [← hbsplit]
      rw [revcomp_cons]
    · conv_rhs => rw [← hasplit]
      rw [revcomp_concat]
      simp

/-- One iteration of the sequential loop, in the regular regime: the left
region starts with a full line `a ++ c ++ [x]` (data split at the
`trailing_len` phase, then the line terminator position `x`) and the right
region ends with `d ++ [y] ++ b` (`y` at the terminator position).  The
iteration consumes exactly these 61 bytes from each end, complement-swaps
`a` with `b` and `c` with `d`, leaves `x` and `y` in place, and continues
with the remainders. -/
theorem rcLoop_step (t : Nat) (ht : t ≤ 60) (a c lrest rrest d b : List Nat) (x y : Nat)
    (hla : a.length = t) (hlc : c.length = 60 - t) (hld : d.length = 60 - t)
    (hlb : b.length = t)
    (hba : ∀ z ∈ a, z < 256) (hbb : ∀ z ∈ b, z < 256)
    (hbc : ∀ z ∈ c, z < 256) (hbd : ∀ z ∈ d, z < 256) :
    rcLoop t (a ++ c ++ x :: lrest) (rrest ++ d ++ y :: b)
      = (revcomp b ++ revcomp d ++ x :: (rcLoop t lrest rrest).1,
         (rcLoop t lrest rrest).2 ++ revcomp c ++ y :: revcomp a) := by
  rw [List.append_assoc a c (x :: lrest)]
  have hronce : rrest ++ d ++ y :: b = (rrest ++ d ++ [y]) ++ b := by simp
  have hrlen : (rrest ++ d ++ y :: b).length = rrest.length + 61 := by
    simp
    omega
  rw [rcLoop]
  rw [if_neg (by simp)]
  -- step (a): the trailing chunk on each side
  have e1 : List.take t (a ++ (c ++ x :: lrest)) = a := List.take_left' hla
  have e2 : List.drop t (a ++ (c ++ x :: lrest)) = c ++ x :: lrest := List.drop_left' hla
  have ebn : (rrest ++ d ++ y :: b).length ⊓ t = t := by omega
  have e3 : List.take ((rrest ++ d ++ y :: b).length - t) (rrest ++ d ++ y :: b)
      = rrest ++ d ++ [y] := by
    rw [hronce]
    apply List.take_left'
    simp
    omega
  have e4 : List.drop ((rrest ++ d ++ y :: b).length - t) (rrest ++ d ++ y :: b) = b := by
    rw [hronce]
    apply List.drop_left'
    simp
    omega
  simp only [ebn, e1, e2, e3, e4]
  have hab : ¬ (a.length < b.length) := by omega
  rw [if_neg hab, if_neg hab]
  rw [chunk_eq a b (by omega) hba hbb]
  -- step (c): skip the newline at the back of the right side
  have f1 : (rrest ++ d ++ [y]).length ⊓ 1 = 1 := by
    simp
    omega
  rw [f1]
  have f2 : List.take ((rrest ++ d ++ [y]).length - 1) (rrest ++ d ++ [y])
      = rrest ++ d := by
    have : rrest ++ d ++ [y] = (rrest ++ d) ++ [y] := by simp
    rw [this]
    apply List.take_left'
    simp
  have f3 : List.drop ((rrest ++ d ++ [y]).length - 1) (rrest ++ d ++ [y]) = [y] := by
    have : rrest ++ d ++ [y] = (rrest ++ d) ++ [y] := by simp
    rw [this]
    apply List.drop_left'
    simp
  rw [f2, f3]
  -- step (d): the leading chunk on each side
  have g1 : List.take (61 - 1 - t) (c ++ x :: lrest) = c := List.take_left' (by omega)
  have g2 : List.drop (61 - 1 - t) (c ++ x :: lrest) = x :: lrest :=
    List.drop_left' (by omega)
  have g3 : (rrest ++ d).length ⊓ (61 - 1 - t) = 61 - 1 - t := by
    simp
    omega
  have g4 : List.take ((rrest ++ d).length - (61 - 1 - t)) (rrest ++ d) = rrest := by
    apply List.take_left'
    simp
    omega
  have g5 : List.drop ((rrest ++ d).length - (61 - 1 - t)) (rrest ++ d) = d := by
    apply List.drop_left'
    simp
    omega
  rw [g1, g2, g3, g4, g5]
  have hcd : ¬ (d.length < c.length) := by omega
  rw [if_neg hcd]
  rw [chunk_eq c d (by omega) hbc hbd]
  simp
  exact fun h => absurd h hcd

theorem rcLoop_nil (t : Nat) : rcLoop t [] [] = ([], []) := by
  rw [rcLoop]
  simp

theorem wrapJoin_of_le {D : List Nat} (h : D.length ≤ 60) : wrapJoin D = D := by
  rw [wrapJoin]
  simp [h]

theorem wrapJoin_of_gt {D : List Nat} (h : 60 < D.length) :
    wrapJoin D = D.take 60 ++ 10 :: wrapJoin (D.drop 60) := by
  rw [wrapJoin]
  rw [if_neg (by omega)]

theorem wrapJoin_length (D : List Nat) :
    D ≠ [] → (wrapJoin D).length = D.length + (D.length - 1) / 60 := by
  induction D using wrapJoin.induct with
  | case1 D h =>
    intro hne
    rw [wrapJoin_of_le h]
    have : 0 < D.length := List.length_pos.mpr hne
    omega
  | case2 D h ih =>
    intro hne
    rw [wrapJoin_of_gt (by omega)]
    have hd : (D.drop 60).length = D.length - 60 := by simp
    have ihd := ih (by intro hz; rw [hz] at hd; simp at hd; omega)
    simp only [List.length_append, List.length_take, List.length_cons, ihd, hd]
    omega

set_option maxRecDepth 4000 in
/-- Peeling the LAST data line (and the 60 - t bytes before it that complete
the final 60-byte block) off a wrapped span. -/
theorem wrapJoin_peel_right (D : List Nat) (h : 61 ≤ D.length) :
    wrapJoin D = wrapJoin (D.take (D.length - 60))
      ++ (D.drop (D.length - 60)).take (60 - ((D.length - 1) % 60 + 1))
      ++ 10 :: D.drop (D.length - ((D.length - 1) % 60 + 1)) := by
  induction D using wrapJoin.induct with
  | case1 D hle =>
    omega
  | case2 D hgt ih =>
    by_cases hsmall : D.length ≤ 120
    · -- two-line base: no recursion needed on the right
      rw [wrapJoin_of_gt (by omega), wrapJoin_of_le (by simp; omega),
          wrapJoin_of_le (by simp; omega)]
      have ht : (D.length - 1) % 60 + 1 = D.length - 60 := by omega
      rw [ht]
      have hdd : D.length - (D.length - 60) = 60 := by omega
      rw [hdd]
      have hta : D.take (D.length - 60) ++ (D.drop (D.length - 60)).take (60 - (D.length - 60))
          = D.take 60 := by
        rw [← List.take_add]
        congr 1
        omega
      rw [← hta]
    · -- recursive case: peel on D.drop 60 via the IH
      have hN : 121 ≤ D.length := by omega
      rw [wrapJoin_of_gt (by omega)]
      rw [ih (by simp; omega)]
      rw [@wrapJoin_of_gt (D.take (D.length - 60)) (by simp; omega)]
      have q1 : (D.take (D.length - 60)).take 60 = D.take 60 := by
        rw [List.take_take]
        congr 1
        omega
      have q2 : (D.take (D.length - 60)).drop 60 = (D.drop 60).take (D.length - 60 - 60) := by
        rw [List.drop_take]
      have q3 : (D.drop 60).length = D.length - 60 := by simp
      have q4 : ((D.drop 60).length - 1) % 60 + 1 = (D.length - 1) % 60 + 1 := by
        rw [q3]
        omega
      have q5 : (D.drop 60).take ((D.drop 60).length - 60)
          = (D.drop 60).take (D.length - 60 - 60) := by rw [q3]
      have q6 : (D.drop 60).drop ((D.drop 60).length - 60) = D.drop (D.length - 60) := by
        rw [q3, List.drop_drop]
        congr 1
        omega
      have q7 : (D.drop 60).drop ((D.drop 60).length - ((D.length - 1) % 60 + 1))
          = D.drop (D.length - ((D.length - 1) % 60 + 1)) := by
        rw [q3, List.drop_drop]
        congr 1
        omega
      rw [q1, q2, q4, q5, q6, q7]
      simp

/-- The terminal iteration when the whole remaining span is a single data
line `u ++ v` split at its midpoint (no newline inside): the loop complements
and swaps everything in one pass, including the odd middle byte. -/
theorem rcLoop_last1 (t : Nat) (u v : List Nat)
    (huv : v.length = u.length ∨ v.length = u.length + 1)
    (htu : u.length ≤ t) (htv : v.length ≤ t)
    (hbu : ∀ z ∈ u, z < 256) (hbv : ∀ z ∈ v, z < 256) :
    rcLoop t u v
      = ((revcomp (u ++ v)).take u.length, (revcomp (u ++ v)).drop u.length) := by
  by_cases hemp : u = [] ∧ v = []
  · obtain ⟨h1, h2⟩ := hemp
    subst h1
    subst h2
    rw [rcLoop_nil]
    simp [revcomp]
  · rw [rcLoop, if_neg hemp]
    have e1 : List.take t u = u := List.take_of_length_le htu
    have e2 : List.drop t u = [] := List.drop_eq_nil_of_le htu
    have e3 : u.length ⊓ t = u.length := by omega
    have e4 : v.length ⊓ t = v.length := by omega
    simp only [e1, e2, e3, e4, Nat.sub_self, List.take_zero, List.drop_zero]
    have hcc : reverse_complement_chunk [] [] = ([], []) := rfl
    rcases huv with hv | hv
    · have hno : ¬ (u.length < v.length) := by omega
      simp only [if_neg hno]
      rw [chunk_eq u v (by omega) hbu hbv]
      simp only [List.take_nil, List.drop_nil, List.length_nil, Nat.sub_self,
        Nat.zero_sub, Nat.sub_zero, List.take_zero, List.drop_zero,
        lt_self_iff_false, if_false, hcc, rcLoop_nil]
      rw [revcomp_append]
      rw [List.take_left' (by rw [revcomp_length]; omega),
          List.drop_left' (by rw [revcomp_length]; omega)]
      simp
    · have hyes : u.length < v.length := by omega
      simp only [if_pos hyes]
      rw [chunk_eq u (v.drop 1) (by simp; omega) hbu
        (fun z hz => hbv z (List.drop_subset _ _ hz))]
      simp only [List.take_nil, List.drop_nil, List.length_nil, Nat.sub_self,
        Nat.zero_sub, Nat.sub_zero, List.take_zero, List.drop_zero,
        lt_self_iff_false, if_false, hcc, rcLoop_nil]
      have hsv : v.take 1 ++ v.drop 1 = v := List.take_append_drop 1 v
      conv_rhs => rw [← hsv, ← List.append_assoc u, revcomp_append, revcomp_append]
      rw [List.take_left' (by rw [revcomp_length]; simp; omega),
          List.drop_left' (by rw [revcomp_length]; simp; omega)]
      have h1v : (v.take 1).length = 1 := by
        simp
        omega
      obtain ⟨y, hy⟩ := List.length_eq_one.mp h1v
      rw [hy]
      simp [revcomp]

/-- The terminal iteration when the remaining span is one full line split
after `u`, followed by the line-terminator position `x`, followed by the
final partial line `w` (of length `trailing_len`): a single loop pass
finishes the record, including the odd middle byte on the left side. -/
theorem rcLoop_last2 (t : Nat) (u v w : List Nat) (x : Nat)
    (hw : w.length = t) (htu : t ≤ u.length)
    (hu60 : u.length + v.length = 60)
    (hpar : u.length - t = v.length ∨ u.length - t = v.length + 1)
    (hbu : ∀ z ∈ u, z < 256) (hbv : ∀ z ∈ v, z < 256) (hbw : ∀ z ∈ w, z < 256) :
    rcLoop t u (v ++ x :: w)
      = ((revcomp w ++ revcomp v ++ revcomp (u.drop t) ++ x :: revcomp (u.take t)).take u.length,
         (revcomp w ++ revcomp v ++ revcomp (u.drop t) ++ x :: revcomp (u.take t)).drop u.length) := by
  rw [rcLoop, if_neg (by simp)]
  have hvxw : v ++ x :: w = (v ++ [x]) ++ w := by simp
  have e3 : (v ++ x :: w).length ⊓ t = t := by
    simp
    omega
  have er1 : List.take ((v ++ x :: w).length - t) (v ++ x :: w) = v ++ [x] := by
    rw [hvxw]
    apply List.take_left'
    simp
    omega
  have er2 : List.drop ((v ++ x :: w).length - t) (v ++ x :: w) = w := by
    rw [hvxw]
    apply List.drop_left'
    simp
    omega
  simp only [e3, er1, er2]
  have hno1 : ¬ ((List.take t u).length < w.length) := by
    simp
    omega
  simp only [if_neg hno1]
  rw [chunk_eq (u.take t) w (by simp; omega)
    (fun z hz => hbu z (List.take_subset _ _ hz)) hbw]
  have f1 : (v ++ [x]).length ⊓ 1 = 1 := by
    simp
  rw [f1]
  have f2 : List.take ((v ++ [x]).length - 1) (v ++ [x]) = v := by
    apply List.take_left'
    simp
  have f3 : List.drop ((v ++ [x]).length - 1) (v ++ [x]) = [x] := by
    apply List.drop_left'
    simp
  rw [f2, f3]
  have g1 : List.take (61 - 1 - t) (List.drop t u) = List.drop t u := by
    apply List.take_of_length_le
    simp
    omega
  have g2 : List.drop (61 - 1 - t) (List.drop t u) = [] := by
    apply List.drop_eq_nil_of_le
    simp
    omega
  rw [g1, g2]
  have g3 : v.length ⊓ (61 - 1 - t) = v.length := by omega
  rw [g3]
  simp only [Nat.sub_self, List.take_zero, List.drop_zero]
  have hcc : reverse_complement_chunk [] [] = ([], []) := rfl
  rcases hpar with hp | hp
  · have hno2 : ¬ (v.length < (List.drop t u).length) := by
      simp
      omega
    simp only [if_neg hno2]
    rw [chunk_eq (u.drop t) v (by simp; omega)
      (fun z hz => hbu z (List.drop_subset _ _ hz)) hbv]
    simp only [List.take_nil, List.drop_nil, rcLoop_nil]
    have hassoc : revcomp w ++ revcomp v ++ revcomp (List.drop t u) ++ x :: revcomp (List.take t u)
        = (revcomp w ++ revcomp v) ++ (revcomp (List.drop t u) ++ x :: revcomp (List.take t u)) := by
      simp
    rw [hassoc]
    have htk : List.take u.length
        ((revcomp w ++ revcomp v) ++ (revcomp (List.drop t u) ++ x :: revcomp (List.take t u)))
        = revcomp w ++ revcomp v := by
      apply List.take_left'
      simp [revcomp_length]
      omega
    have hdp : List.drop u.length
        ((revcomp w ++ revcomp v) ++ (revcomp (List.drop t u) ++ x :: revcomp (List.take t u)))
        = revcomp (List.drop t u) ++ x :: revcomp (List.take t u) := by
      apply List.drop_left'
      simp [revcomp_length]
      omega
    rw [htk, hdp]
    simp
  · have hyes2 : v.length < (List.drop t u).length := by
      simp
      omega
    simp only [if_pos hyes2]
    rw [chunk_eq ((u.drop t).take ((u.drop t).length - 1)) v (by simp; omega)
      (fun z hz => hbu z (List.drop_subset _ _ (List.take_subset _ _ hz))) hbv]
    simp only [List.take_nil, List.drop_nil, rcLoop_nil]
    have hz1 : ((u.drop t).drop ((u.drop t).length - 1)).length = 1 := by
      simp
      omega
    obtain ⟨z, hz⟩ := List.length_eq_one.mp hz1
    have hqsplit : (u.drop t).take ((u.drop t).length - 1) ++ [z] = u.drop t := by
      rw [← hz]
      exact List.take_append_drop _ _
    have hrcq : revcomp (List.drop t u)
        = cpl8 z :: revcomp ((u.drop t).take ((u.drop t).length - 1)) := by
      rw [← hqsplit, revcomp_concat, hqsplit]
    rw [hz, hrcq]
    have hassoc : revcomp w ++ revcomp v
          ++ (cpl8 z :: revcomp ((u.drop t).take ((u.drop t).length - 1)))
          ++ x :: revcomp (List.take t u)
        = (revcomp w ++ revcomp v ++ [cpl8 z])
          ++ (revcomp ((u.drop t).take ((u.drop t).length - 1)) ++ x :: revcomp (List.take t u)) := by
      simp
    rw [hassoc]
    have htk : List.take u.length
        ((revcomp w ++ revcomp v ++ [cpl8 z])
          ++ (revcomp ((u.drop t).take ((u.drop t).length - 1)) ++ x :: revcomp (List.take t u)))
        = revcomp w ++ revcomp v ++ [cpl8 z] := by
      apply List.take_left'
      simp [revcomp_length]
      omega
    have hdp : List.drop u.length
        ((revcomp w ++ revcomp v ++ [cpl8 z])
          ++ (revcomp ((u.drop t).take ((u.drop t).length - 1)) ++ x :: revcomp (List.take t u)))
        = revcomp ((u.drop t).take ((u.drop t).length - 1)) ++ x :: revcomp (List.take t u) := by
      apply List.drop_left'
      simp [revcomp_length]
      omega
    rw [htk, hdp]
    simp

set_option maxRecDepth 10000 in
set_option maxHeartbeats 2000000 in
/-- Master correctness of the sequential loop: on the span of a wrapped
record (split at its midpoint, with `trailing_len` as computed by
`reverse_complement`), the loop produces exactly the wrapped reverse
complement of the data. -/
theorem rcLoop_master : ∀ (N : Nat) (D : List Nat), D.length = N → D ≠ [] →
    (∀ z ∈ D, z < 256) →
    rcLoop ((wrapJoin D).length % 61)
        ((wrapJoin D).take ((wrapJoin D).length / 2))
        ((wrapJoin D).drop ((wrapJoin D).length / 2))
      = ((wrapJoin (revcomp D)).take ((wrapJoin D).length / 2),
         (wrapJoin (revcomp D)).drop ((wrapJoin D).length / 2)) := by
  intro N
  induction N using Nat.strong_induction_on with
  | _ N ih =>
    intro D hN hne hb
    have hpos : 0 < D.length := List.length_pos.mpr hne
    by_cases h1 : D.length ≤ 60
    · -- a single data line: the whole span is the line, trailing_len is its length
      rw [wrapJoin_of_le h1, wrapJoin_of_le (by rw [revcomp_length]; omega)]
      have ht : D.length % 61 = D.length := by omega
      rw [ht]
      rw [rcLoop_last1 D.length (D.take (D.length / 2)) (D.drop (D.length / 2))
          (by simp; omega) (by simp) (by simp)
          (fun z hz => hb z (List.take_subset _ _ hz))
          (fun z hz => hb z (List.drop_subset _ _ hz))]
      rw [List.take_append_drop]
      have hl : (D.take (D.length / 2)).length = D.length / 2 := by
        simp
        omega
      rw [hl]
    · by_cases h2 : D.length ≤ 120
      · -- exactly two lines: 60 data bytes, newline, then the short last line
        have hw : wrapJoin D = D.take 60 ++ 10 :: D.drop 60 := by
          rw [wrapJoin_of_gt (by omega), wrapJoin_of_le (by simp; omega)]
        rw [hw]
        have hslen : (D.take 60 ++ 10 :: D.drop 60).length = D.length + 1 := by
          simp
          omega
        rw [hslen]
        have ht : (D.length + 1) % 61 = D.length - 60 := by omega
        rw [ht]
        have eL : (D.take 60 ++ 10 :: D.drop 60).take ((D.length + 1) / 2)
            = D.take ((D.length + 1) / 2) := by
          rw [List.take_append_eq_append_take]
          have z1 : (D.length + 1) / 2 - (D.take 60).length = 0 := by
            simp
            omega
          rw [z1, List.take_zero, List.append_nil, List.take_take]
          congr 1
          omega
        have eR : (D.take 60 ++ 10 :: D.drop 60).drop ((D.length + 1) / 2)
            = (D.take 60).drop ((D.length + 1) / 2) ++ 10 :: D.drop 60 := by
          rw [List.drop_append_eq_append_drop]
          have z1 : (D.length + 1) / 2 - (D.take 60).length = 0 := by
            simp
            omega
          rw [z1, List.drop_zero]
        rw [eL, eR]
        rw [rcLoop_last2 (D.length - 60) (D.take ((D.length + 1) / 2))
            ((D.take 60).drop ((D.length + 1) / 2)) (D.drop 60) 10
            (by simp only [List.length_drop])
            (by simp only [List.length_take]; omega)
            (by simp only [List.length_take, List.length_drop]; omega)
            (by simp only [List.length_take, List.length_drop]; omega)
            (fun z hz => hb z (List.take_subset _ _ hz))
            (fun z hz => hb z (List.take_subset _ _ (List.drop_subset _ _ hz)))
            (fun z hz => hb z (List.drop_subset _ _ hz))]
        have hrw : wrapJoin (revcomp D)
            = (revcomp D).take 60 ++ 10 :: (revcomp D).drop 60 := by
          rw [wrapJoin_of_gt (by rw [revcomp_length]; omega),
              wrapJoin_of_le (by simp [revcomp_length]; omega)]
        have huv : D.take 60 = D.take ((D.length + 1) / 2)
            ++ (D.take 60).drop ((D.length + 1) / 2) := by
          conv_lhs => rw [← List.take_append_drop ((D.length + 1) / 2) (D.take 60)]
          congr 1
          rw [List.take_take]
          congr 1
          omega
        have hDdec : D = (D.take ((D.length + 1) / 2)
            ++ (D.take 60).drop ((D.length + 1) / 2)) ++ D.drop 60 := by
          rw [← huv, List.take_append_drop]
        have hrcu : revcomp (D.take ((D.length + 1) / 2))
            = revcomp ((D.take ((D.length + 1) / 2)).drop (D.length - 60))
              ++ revcomp ((D.take ((D.length + 1) / 2)).take (D.length - 60)) := by
          conv_lhs =>
            rw [← List.take_append_drop (D.length - 60) (D.take ((D.length + 1) / 2))]
          rw [revcomp_append]
        have hrcD : revcomp D
            = (revcomp (D.drop 60) ++ revcomp ((D.take 60).drop ((D.length + 1) / 2))
               ++ revcomp ((D.take ((D.length + 1) / 2)).drop (D.length - 60)))
              ++ revcomp ((D.take ((D.length + 1) / 2)).take (D.length - 60)) := by
          conv_lhs => rw [hDdec]
          rw [revcomp_append, revcomp_append, hrcu]
          simp
        have halpha : (revcomp D).take 60
            = revcomp (D.drop 60) ++ revcomp ((D.take 60).drop ((D.length + 1) / 2))
              ++ revcomp ((D.take ((D.length + 1) / 2)).drop (D.length - 60)) := by
          rw [hrcD]
          apply List.take_left'
          simp [revcomp_length]
          omega
        have hbeta : (revcomp D).drop 60
            = revcomp ((D.take ((D.length + 1) / 2)).take (D.length - 60)) := by
          rw [hrcD]
          apply List.drop_left'
          simp [revcomp_length]
          omega
        have hS : wrapJoin (revcomp D)
            = revcomp (D.drop 60) ++ revcomp ((D.take 60).drop ((D.length + 1) / 2))
              ++ revcomp ((D.take ((D.length + 1) / 2)).drop (D.length - 60))
              ++ 10 :: revcomp ((D.take ((D.length + 1) / 2)).take (D.length - 60)) := by
          rw [hrw, halpha, hbeta]
        rw [hS]
        have hul : (D.take ((D.length + 1) / 2)).length = (D.length + 1) / 2 := by
          simp
          omega
        rw [hul]
      · -- at least three lines: peel one full line from each end and recurse
        have hN121 : 121 ≤ D.length := by omega
        have hL : (wrapJoin D).length = D.length + (D.length - 1) / 60 :=
          wrapJoin_length D hne
        have hD'len : ((D.drop 60).take (D.length - 120)).length = D.length - 120 := by
          simp
          omega
        have hD'ne : (D.drop 60).take (D.length - 120) ≠ [] := by
          intro hz
          rw [hz] at hD'len
          simp at hD'len
          omega
        have hWlen : (wrapJoin ((D.drop 60).take (D.length - 120))).length
            = D.length + (D.length - 1) / 60 - 122 := by
          rw [wrapJoin_length _ hD'ne, hD'len]
          omega
        have hfront : wrapJoin (D.take (D.length - 60))
            = D.take 60 ++ 10 :: wrapJoin ((D.drop 60).take (D.length - 120)) := by
          rw [wrapJoin_of_gt (by simp; omega)]
          have r1 : (D.take (D.length - 60)).take 60 = D.take 60 := by
            rw [List.take_take]
            congr 1
            omega
          have r2 : (D.take (D.length - 60)).drop 60
              = (D.drop 60).take (D.length - 120) := by
            rw [List.drop_take]
            congr 1
          rw [r1, r2]
        have hs : wrapJoin D
            = (D.take 60 ++ 10 :: wrapJoin ((D.drop 60).take (D.length - 120)))
              ++ ((D.drop (D.length - 60)).take (60 - ((D.length - 1) % 60 + 1))
                  ++ 10 :: D.drop (D.length - ((D.length - 1) % 60 + 1))) := by
          rw [wrapJoin_peel_right D (by omega), hfront]
          simp
        rw [hL]
        have htt : (D.length + (D.length - 1) / 60) % 61 = (D.length - 1) % 60 + 1 := by
          omega
        rw [htt]
        have z4 : D.take 60 = D.take ((D.length - 1) % 60 + 1)
            ++ (D.take 60).drop ((D.length - 1) % 60 + 1) := by
          conv_lhs => rw [← List.take_append_drop ((D.length - 1) % 60 + 1) (D.take 60)]
          congr 1
          rw [List.take_take]
          congr 1
          omega
        have eTake : (wrapJoin D).take ((D.length + (D.length - 1) / 60) / 2)
            = D.take ((D.length - 1) % 60 + 1)
              ++ (D.take 60).drop ((D.length - 1) % 60 + 1)
              ++ 10 :: (wrapJoin ((D.drop 60).take (D.length - 120))).take
                    ((D.length + (D.length - 1) / 60) / 2 - 61) := by
          rw [hs]
          rw [List.take_append_of_le_length (by simp [hWlen]; omega)]
          rw [List.take_append_eq_append_take]
          have z2 : List.take ((D.length + (D.length - 1) / 60) / 2) (D.take 60)
              = D.take 60 := by
            apply List.take_of_length_le
            simp
            omega
          have z3 : (D.length + (D.length - 1) / 60) / 2 - (D.take 60).length
              = ((D.length + (D.length - 1) / 60) / 2 - 61) + 1 := by
            simp
            omega
          rw [z2, z3, List.take_succ_cons]
          conv_lhs => rw [z4]
        have eDrop : (wrapJoin D).drop ((D.length + (D.length - 1) / 60) / 2)
            = (wrapJoin ((D.drop 60).take (D.length - 120))).drop
                  ((D.length + (D.length - 1) / 60) / 2 - 61)
              ++ (D.drop (D.length - 60)).take (60 - ((D.length - 1) % 60 + 1))
              ++ 10 :: D.drop (D.length - ((D.length - 1) % 60 + 1)) := by
          rw [hs]
          rw [List.drop_append_of_le_length (by simp [hWlen]; omega)]
          rw [List.drop_append_eq_append_drop]
          have z2 : List.drop ((D.length + (D.length - 1) / 60) / 2) (D.take 60) = [] := by
            apply List.drop_eq_nil_of_le
            simp
            omega
          have z3 : (D.length + (D.length - 1) / 60) / 2 - (D.take 60).length
              = ((D.length + (D.length - 1) / 60) / 2 - 61) + 1 := by
            simp
            omega
          rw [z2, z3, List.drop_succ_cons]
          simp
        rw [eTake, eDrop]
        rw [rcLoop_step ((D.length - 1) % 60 + 1) (by omega)
            (D.take ((D.length - 1) % 60 + 1))
            ((D.take 60).drop ((D.length - 1) % 60 + 1))
            ((wrapJoin ((D.drop 60).take (D.length - 120))).take
                ((D.length + (D.length - 1) / 60) / 2 - 61))
            ((wrapJoin ((D.drop 60).take (D.length - 120))).drop
                ((D.length + (D.length - 1) / 60) / 2 - 61))
            ((D.drop (D.length - 60)).take (60 - ((D.length - 1) % 60 + 1)))
            (D.drop (D.length - ((D.length - 1) % 60 + 1)))
            10 10
            (by simp only [List.length_take]; omega)
            (by simp only [List.length_take, List.length_drop]; omega)
            (by simp only [List.length_take, List.length_drop]; omega)
            (by simp only [List.length_drop]; omega)
            (fun z hz => hb z (List.take_subset _ _ hz))
            (fun z hz => hb z (List.drop_subset _ _ hz))
            (fun z hz => hb z (List.take_subset _ _ (List.drop_subset _ _ hz)))
            (fun z hz => hb z (List.drop_subset _ _ (List.take_subset _ _ hz)))]
        have hIH := ih (D.length - 120) (by omega) ((D.drop 60).take (D.length - 120))
            hD'len hD'ne
            (fun z hz => hb z (List.drop_subset _ _ (List.take_subset _ _ hz)))
        rw [hWlen] at hIH
        have c1 : (D.length + (D.length - 1) / 60 - 122) % 61
            = (D.length - 1) % 60 + 1 := by omega
        have c2 : (D.length + (D.length - 1) / 60 - 122) / 2
            = (D.length + (D.length - 1) / 60) / 2 - 61 := by omega
        rw [c1, c2] at hIH
        rw [hIH]
        have hsplit4 : (D.drop 60).drop (D.length - 120) = D.drop (D.length - 60) := by
          rw [List.drop_drop]
          congr 1
          omega
        have hsplit5 : (D.drop (D.length - 60)).drop (60 - ((D.length - 1) % 60 + 1))
            = D.drop (D.length - ((D.length - 1) % 60 + 1)) := by
          rw [List.drop_drop]
          congr 1
          omega
        have hD5 : D = D.take ((D.length - 1) % 60 + 1)
            ++ (D.take 60).drop ((D.length - 1) % 60 + 1)
            ++ ((D.drop 60).take (D.length - 120)
            ++ ((D.drop (D.length - 60)).take (60 - ((D.length - 1) % 60 + 1))
            ++ D.drop (D.length - ((D.length - 1) % 60 + 1)))) := by
          conv_lhs => rw [← List.take_append_drop 60 D]
          conv_lhs => rw [z4]
          conv_lhs => rw [← List.take_append_drop (D.length - 120) (D.drop 60)]
          conv_lhs => rw [hsplit4]
          conv_lhs => rw [← List.take_append_drop
            (60 - ((D.length - 1) % 60 + 1)) (D.drop (D.length - 60))]
          conv_lhs => rw [hsplit5]
        have hrcD5 : revcomp D
            = revcomp (D.drop (D.length - ((D.length - 1) % 60 + 1)))
              ++ revcomp ((D.drop (D.length - 60)).take (60 - ((D.length - 1) % 60 + 1)))
              ++ revcomp ((D.drop 60).take (D.length - 120))
              ++ revcomp ((D.take 60).drop ((D.length - 1) % 60 + 1))
              ++ revcomp (D.take ((D.length - 1) % 60 + 1)) := by
          conv_lhs => rw [hD5]
          simp [revcomp_append]
        have hg1 : revcomp D
            = (revcomp (D.drop (D.length - ((D.length - 1) % 60 + 1)))
               ++ revcomp ((D.drop (D.length - 60)).take (60 - ((D.length - 1) % 60 + 1))))
              ++ (revcomp ((D.drop 60).take (D.length - 120))
                  ++ (revcomp ((D.take 60).drop ((D.length - 1) % 60 + 1))
                      ++ revcomp (D.take ((D.length - 1) % 60 + 1)))) := by
          rw [hrcD5]
          simp
        have b1 : (revcomp D).take 60
            = revcomp (D.drop (D.length - ((D.length - 1) % 60 + 1)))
              ++ revcomp ((D.drop (D.length - 60)).take (60 - ((D.length - 1) % 60 + 1))) := by
          rw [hg1]
          apply List.take_left'
          simp [revcomp_length]
          omega
        have b1' : (revcomp D).drop 60
            = revcomp ((D.drop 60).take (D.length - 120))
              ++ (revcomp ((D.take 60).drop ((D.length - 1) % 60 + 1))
                  ++ revcomp (D.take ((D.length - 1) % 60 + 1))) := by
          rw [hg1]
          apply List.drop_left'
          simp [revcomp_length]
          omega
        have b2 : ((revcomp D).drop 60).take (D.length - 120)
            = revcomp ((D.drop 60).take (D.length - 120)) := by
          rw [b1']
          apply List.take_left'
          simp [revcomp_length]
          omega
        have hg3 : revcomp D
            = (revcomp (D.drop (D.length - ((D.length - 1) % 60 + 1)))
               ++ revcomp ((D.drop (D.length - 60)).take (60 - ((D.length - 1) % 60 + 1)))
               ++ revcomp ((D.drop 60).take (D.length - 120)))
              ++ (revcomp ((D.take 60).drop ((D.length - 1) % 60 + 1))
                  ++ revcomp (D.take ((D.length - 1) % 60 + 1))) := by
          rw [hrcD5]
          simp
        have hdropN60 : (revcomp D).drop (D.length - 60)
            = revcomp ((D.take 60).drop ((D.length - 1) % 60 + 1))
              ++ revcomp (D.take ((D.length - 1) % 60 + 1)) := by
          rw [hg3]
          apply List.drop_left'
          simp [revcomp_length]
          omega
        have b3 : ((revcomp D).drop (D.length - 60)).take (60 - ((D.length - 1) % 60 + 1))
            = revcomp ((D.take 60).drop ((D.length - 1) % 60 + 1)) := by
          rw [hdropN60]
          apply List.take_left'
          simp [revcomp_length]
          omega
        have hg4 : revcomp D
            = (revcomp (D.drop (D.length - ((D.length - 1) % 60 + 1)))
               ++ revcomp ((D.drop (D.length - 60)).take (60 - ((D.length - 1) % 60 + 1)))
               ++ revcomp ((D.drop 60).take (D.length - 120))
               ++ revcomp ((D.take 60).drop ((D.length - 1) % 60 + 1)))
              ++ revcomp (D.take ((D.length - 1) % 60 + 1)) := by
          rw [hrcD5]
        have b4 : (revcomp D).drop (D.length - ((D.length - 1) % 60 + 1))
            = revcomp (D.take ((D.length - 1) % 60 + 1)) := by
          rw [hg4]
          apply List.drop_left'
          simp [revcomp_length]
          omega
        have hpE := wrapJoin_peel_right (revcomp D) (by rw [revcomp_length]; omega)
        rw [revcomp_length] at hpE
        have hfrontE : wrapJoin ((revcomp D).take (D.length - 60))
            = (revcomp D).take 60
              ++ 10 :: wrapJoin (((revcomp D).drop 60).take (D.length - 120)) := by
          rw [wrapJoin_of_gt (by simp [revcomp_length]; omega)]
          have r1 : ((revcomp D).take (D.length - 60)).take 60 = (revcomp D).take 60 := by
            rw [List.take_take]
            congr 1
            omega
          have r2 : ((revcomp D).take (D.length - 60)).drop 60
              = ((revcomp D).drop 60).take (D.length - 120) := by
            rw [List.drop_take]
            congr 1
          rw [r1, r2]
        have hrne : revcomp ((D.drop 60).take (D.length - 120)) ≠ [] := by
          intro hz
          have hlz := congrArg List.length hz
          rw [revcomp_length, hD'len] at hlz
          simp at hlz
          omega
        have hW2len : (wrapJoin (revcomp ((D.drop 60).take (D.length - 120)))).length
            = D.length + (D.length - 1) / 60 - 122 := by
          rw [wrapJoin_length _ hrne, revcomp_length, hD'len]
          omega
        have hsr : wrapJoin (revcomp D)
            = (revcomp (D.drop (D.length - ((D.length - 1) % 60 + 1)))
               ++ revcomp ((D.drop (D.length - 60)).take (60 - ((D.length - 1) % 60 + 1)))
               ++ 10 :: wrapJoin (revcomp ((D.drop 60).take (D.length - 120))))
              ++ (revcomp ((D.take 60).drop ((D.length - 1) % 60 + 1))
                  ++ 10 :: revcomp (D.take ((D.length - 1) % 60 + 1))) := by
          rw [hpE, hfrontE, b1, b2, b3, b4]
          simp
        have eTakeR : (wrapJoin (revcomp D)).take ((D.length + (D.length - 1) / 60) / 2)
            = revcomp (D.drop (D.length - ((D.length - 1) % 60 + 1)))
              ++ revcomp ((D.drop (D.length - 60)).take (60 - ((D.length - 1) % 60 + 1)))
              ++ 10 :: (wrapJoin (revcomp ((D.drop 60).take (D.length - 120)))).take
                    ((D.length + (D.length - 1) / 60) / 2 - 61) := by
          rw [hsr]
          rw [List.take_append_of_le_length
            (by simp [hW2len, revcomp_length]; omega)]
          rw [List.take_append_eq_append_take]
          have y1 : List.take ((D.length + (D.length - 1) / 60) / 2)
              (revcomp (D.drop (D.length - ((D.length - 1) % 60 + 1)))
               ++ revcomp ((D.drop (D.length - 60)).take (60 - ((D.length - 1) % 60 + 1))))
              = revcomp (D.drop (D.length - ((D.length - 1) % 60 + 1)))
                ++ revcomp ((D.drop (D.length - 60)).take (60 - ((D.length - 1) % 60 + 1))) := by
            apply List.take_of_length_le
            simp [revcomp_length]
            omega
          have y2 : (D.length + (D.length - 1) / 60) / 2
              - (revcomp (D.drop (D.length - ((D.length - 1) % 60 + 1)))
                 ++ revcomp ((D.drop (D.length - 60)).take
                      (60 - ((D.length - 1) % 60 + 1)))).length
              = ((D.length + (D.length - 1) / 60) / 2 - 61) + 1 := by
            simp [revcomp_length]
            omega
          rw [y1, y2, List.take_succ_cons]
        have eDropR : (wrapJoin (revcomp D)).drop ((D.length + (D.length - 1) / 60) / 2)
            = (wrapJoin (revcomp ((D.drop 60).take (D.length - 120)))).drop
                  ((D.length + (D.length - 1) / 60) / 2 - 61)
              ++ revcomp ((D.take 60).drop ((D.length - 1) % 60 + 1))
              ++ 10 :: revcomp (D.take ((D.length - 1) % 60 + 1)) := by
          rw [hsr]
          rw [List.drop_append_of_le_length
            (by simp [hW2len, revcomp_length]; omega)]
          rw [List.drop_append_eq_append_drop]
          have y1 : List.drop ((D.length + (D.length - 1) / 60) / 2)
              (revcomp (D.drop (D.length - ((D.length - 1) % 60 + 1)))
               ++ revcomp ((D.drop (D.length - 60)).take (60 - ((D.length - 1) % 60 + 1))))
              = [] := by
            apply List.drop_eq_nil_of_le
            simp [revcomp_length]
            omega
          have y2 : (D.length + (D.length - 1) / 60) / 2
              - (revcomp (D.drop (D.length - ((D.length - 1) % 60 + 1)))
                 ++ revcomp ((D.drop (D.length - 60)).take
                      (60 - ((D.length - 1) % 60 + 1)))).length
              = ((D.length + (D.length - 1) / 60) / 2 - 61) + 1 := by
            simp [revcomp_length]
            omega
          rw [y1, y2, List.drop_succ_cons]
          simp
        rw [eTakeR, eDropR]

/-- Disjoint decomposition of the sequential loop: when the front `61 * m`
bytes of the left region and the back `61 * m` bytes of the right region are
split off (a whole number of lines on each side, as the parallel split does),
the loop acts independently on the two parts.  This is the correctness of
the fork in `reverse_complement_left_right`. -/
theorem rcLoop_split (t : Nat) (ht : t ≤ 60) : ∀ (m : Nat) (l1 l2 r2 r1 : List Nat),
    l1.length = 61 * m → r1.length = 61 * m →
    (∀ z ∈ l1, z < 256) → (∀ z ∈ r1, z < 256) →
    rcLoop t (l1 ++ l2) (r2 ++ r1)
      = ((rcLoop t l1 r1).1 ++ (rcLoop t l2 r2).1,
         (rcLoop t l2 r2).2 ++ (rcLoop t l1 r1).2) := by
  intro m
  induction m with
  | zero =>
    intro l1 l2 r2 r1 h1 h2 _ _
    have hl : l1 = [] := List.eq_nil_of_length_eq_zero (by omega)
    have hr : r1 = [] := List.eq_nil_of_length_eq_zero (by omega)
    subst hl
    subst hr
    simp [rcLoop_nil]
  | succ k ihm =>
    intro l1 l2 r2 r1 h1 h2 hb1 hb2
    obtain ⟨u, us, hz1⟩ := List.exists_cons_of_ne_nil (show l1.drop 60 ≠ [] by
      intro hz
      have hlz := congrArg List.length hz
      simp at hlz
      omega)
    have hus : us = l1.drop 61 := by
      have htl := congrArg List.tail hz1
      rw [List.tail_drop] at htl
      simp at htl
      exact htl.symm
    have hdecompL : l1 = l1.take t ++ (l1.drop t).take (60 - t) ++ u :: us := by
      have h60 : l1.take 60 = l1.take t ++ (l1.drop t).take (60 - t) := by
        conv_lhs => rw [show (60 : Nat) = t + (60 - t) from by omega]
        rw [List.take_add]
      conv_lhs => rw [← List.take_append_drop 60 l1]
      rw [h60, hz1]
    obtain ⟨y, ys, hz2⟩ := List.exists_cons_of_ne_nil
      (show (r1.drop (r1.length - 61)).drop (60 - t) ≠ [] by
        intro hz
        have hlz := congrArg List.length hz
        simp at hlz
        omega)
    have hys : ys = r1.drop (r1.length - 61 + (61 - t)) := by
      have htl := congrArg List.tail hz2
      rw [List.tail_drop, List.drop_drop] at htl
      simp at htl
      rw [← htl]
      congr 1
      omega
    have hdecompR : r1 = r1.take (r1.length - 61)
        ++ (r1.drop (r1.length - 61)).take (60 - t) ++ y :: ys := by
      have hz3 : r1.drop (r1.length - 61)
          = (r1.drop (r1.length - 61)).take (60 - t) ++ y :: ys := by
        conv_lhs => rw [← List.take_append_drop (60 - t) (r1.drop (r1.length - 61))]
        rw [hz2]
      conv_lhs => rw [← List.take_append_drop (r1.length - 61) r1]
      conv_lhs => rw [hz3]
      simp
    have hbys : ∀ z ∈ ys, z < 256 := by
      intro z hz
      rw [hys] at hz
      exact hb2 z (List.drop_subset _ _ hz)
    have hlys : ys.length = t := by
      rw [hys]
      simp
      omega
    have hstep2 : rcLoop t l1 r1
        = (revcomp ys ++ revcomp ((r1.drop (r1.length - 61)).take (60 - t))
            ++ u :: (rcLoop t us (r1.take (r1.length - 61))).1,
           (rcLoop t us (r1.take (r1.length - 61))).2
            ++ revcomp ((l1.drop t).take (60 - t)) ++ y :: revcomp (l1.take t)) := by
      conv_lhs => rw [hdecompL, hdecompR]
      exact rcLoop_step t ht (l1.take t) ((l1.drop t).take (60 - t)) us
        (r1.take (r1.length - 61)) ((r1.drop (r1.length - 61)).take (60 - t)) ys u y
        (by simp; omega) (by simp; omega) (by simp; omega) hlys
        (fun z hz => hb1 z (List.take_subset _ _ hz))
        hbys
        (fun z hz => hb1 z (List.drop_subset _ _ (List.take_subset _ _ hz)))
        (fun z hz => hb2 z (List.drop_subset _ _ (List.take_subset _ _ hz)))
    have hL1 : l1 ++ l2 = l1.take t ++ (l1.drop t).take (60 - t) ++ u :: (us ++ l2) := by
      conv_lhs => rw [hdecompL]
      simp
    have hR1 : r2 ++ r1 = (r2 ++ r1.take (r1.length - 61))
        ++ (r1.drop (r1.length - 61)).take (60 - t) ++ y :: ys := by
      conv_lhs => rw [hdecompR]
      simp
    rw [hL1, hR1]
    rw [rcLoop_step t ht (l1.take t) ((l1.drop t).take (60 - t)) (us ++ l2)
        (r2 ++ r1.take (r1.length - 61)) ((r1.drop (r1.length - 61)).take (60 - t)) ys u y
        (by simp; omega) (by simp; omega) (by simp; omega) hlys
        (fun z hz => hb1 z (List.take_subset _ _ hz))
        hbys
        (fun z hz => hb1 z (List.drop_subset _ _ (List.take_subset _ _ hz)))
        (fun z hz => hb2 z (List.drop_subset _ _ (List.take_subset _ _ hz)))]
    rw [hstep2]
    rw [ihm us l2 r2 (r1.take (r1.length - 61))
        (by rw [hus]; simp; omega) (by simp; omega)
        (fun z hz => by rw [hus] at hz; exact hb1 z (List.drop_subset _ _ hz))
        (fun z hz => hb2 z (List.take_subset _ _ hz))]
    simp

theorem wrapJoin_bytes {D : List Nat} (hb : ∀ z ∈ D, z < 256) :
    ∀ z ∈ wrapJoin D, z < 256 := by
  induction D using wrapJoin.induct with
  | case1 D h =>
    rw [wrapJoin_of_le h]
    exact hb
  | case2 D h ih =>
    rw [wrapJoin_of_gt (by omega)]
    intro z hz
    rcases List.mem_append.mp hz with hz1 | hz2
    · exact hb z (List.take_subset _ _ hz1)
    · rcases List.mem_cons.mp hz2 with hz3 | hz4
      · omega
      · exact ih (fun w hw => hb w (List.drop_subset _ _ hw)) z hz4

/-- The parallel recursion of `reverse_complement_left_right` computes
exactly the sequential loop (in the regular regime `trailing_len ≤ 60` and
left half no longer than the right half). -/
theorem reverse_complement_left_right_eq (t : Nat) (ht : t ≤ 60) :
    ∀ (n : Nat) (l r : List Nat), l.length = n → l.length ≤ r.length →
    (∀ z ∈ l, z < 256) → (∀ z ∈ r, z < 256) →
    reverse_complement_left_right t l r = rcLoop t l r := by
  intro n
  induction n using Nat.strong_induction_on with
  | _ n ih =>
    intro l r hn hlr hbl hbr
    rw [reverse_complement_left_right]
    by_cases hle : l.length ≤ 2048
    · rw [if_pos hle]
    · rw [if_neg hle]
      have hmid1 : 61 ≤ (l.length + 61 - 1) / 61 / 2 * 61 := by omega
      have hmid2 : (l.length + 61 - 1) / 61 / 2 * 61 < l.length := by omega
      have hrn : r.length ⊓ ((l.length + 61 - 1) / 61 / 2 * 61)
          = (l.length + 61 - 1) / 61 / 2 * 61 := by omega
      simp only [hrn]
      rw [ih (l.length - (l.length + 61 - 1) / 61 / 2 * 61) (by omega)
          (l.drop ((l.length + 61 - 1) / 61 / 2 * 61))
          (r.take (r.length - (l.length + 61 - 1) / 61 / 2 * 61))
          (by simp) (by simp; omega)
          (fun z hz => hbl z (List.drop_subset _ _ hz))
          (fun z hz => hbr z (List.take_subset _ _ hz))]
      rw [ih ((l.length + 61 - 1) / 61 / 2 * 61) (by omega)
          (l.take ((l.length + 61 - 1) / 61 / 2 * 61))
          (r.drop (r.length - (l.length + 61 - 1) / 61 / 2 * 61))
          (by simp; omega) (by simp; omega)
          (fun z hz => hbl z (List.take_subset _ _ hz))
          (fun z hz => hbr z (List.drop_subset _ _ hz))]
      have hsplit := rcLoop_split t ht ((l.length + 61 - 1) / 61 / 2)
        (l.take ((l.length + 61 - 1) / 61 / 2 * 61))
        (l.drop ((l.length + 61 - 1) / 61 / 2 * 61))
        (r.take (r.length - (l.length + 61 - 1) / 61 / 2 * 61))
        (r.drop (r.length - (l.length + 61 - 1) / 61 / 2 * 61))
        (by simp; omega) (by simp; omega)
        (fun z hz => hbl z (List.take_subset _ _ hz))
        (fun z hz => hbr z (List.drop_subset _ _ hz))
      rw [List.take_append_drop, List.take_append_drop] at hsplit
      rw [hsplit]

/-- The engine with the sequential/parallel threshold exposed as a knob
`thr`, and explicit recursion fuel (the source recursion with threshold 1
does not terminate, so a total model needs fuel; `none` models
non-termination within the given fuel). -/
def rcLoopThreshold (thr fuel t : Nat) (left right : List Nat) :
    Option (List Nat × List Nat) :=
  if left.length ≤ thr then some (rcLoop t left right)
  else
    match fuel with
    | 0 => none
    | fuel + 1 =>
      let line_count := (left.length + 61 - 1) / 61
      let mid := line_count / 2 * 61
      let rn := min right.length mid
      match rcLoopThreshold thr fuel t (left.drop mid) (right.take (right.length - rn)),
            rcLoopThreshold thr fuel t (left.take mid) (right.drop (right.length - rn)) with
      | some pa, some pb => some (pb.1 ++ pa.1, pa.2 ++ pb.2)
      | _, _ => none

/-- Any threshold of at least one full line (61 bytes) makes the recursion
terminate and produce exactly the sequential result. -/
theorem rcLoopThreshold_eq (thr : Nat) (hthr : 61 ≤ thr) (t : Nat) (ht : t ≤ 60) :
    ∀ (fuel : Nat) (l r : List Nat), l.length ≤ fuel → l.length ≤ r.length →
    (∀ z ∈ l, z < 256) → (∀ z ∈ r, z < 256) →
    rcLoopThreshold thr fuel t l r = some (rcLoop t l r) := by
  intro fuel
  induction fuel using Nat.strong_induction_on with
  | _ fuel ih =>
    intro l r hfuel hlr hbl hbr
    rw [rcLoopThreshold.eq_def]
    by_cases hle : l.length ≤ thr
    · rw [if_pos hle]
    · rw [if_neg hle]
      match fuel, hfuel with
      | 0, hfuel => omega
      | fuel + 1, hfuel =>
        have hmid1 : 61 ≤ (l.length + 61 - 1) / 61 / 2 * 61 := by omega
        have hmid2 : (l.length + 61 - 1) / 61 / 2 * 61 < l.length := by omega
        have hrn : r.length ⊓ ((l.length + 61 - 1) / 61 / 2 * 61)
            = (l.length + 61 - 1) / 61 / 2 * 61 := by omega
        simp only [hrn]
        rw [ih fuel (by omega)
            (l.drop ((l.length + 61 - 1) / 61 / 2 * 61))
            (r.take (r.length - (l.length + 61 - 1) / 61 / 2 * 61))
            (by simp; omega) (by simp; omega)
            (fun z hz => hbl z (List.drop_subset _ _ hz))
            (fun z hz => hbr z (List.take_subset _ _ hz))]
        rw [ih fuel (by omega)
            (l.take ((l.length + 61 - 1) / 61 / 2 * 61))
            (r.drop (r.length - (l.length + 61 - 1) / 61 / 2 * 61))
            (by simp; omega) (by simp; omega)
            (fun z hz => hbl z (List.take_subset _ _ hz))
            (fun z hz => hbr z (List.drop_subset _ _ hz))]
        have hsplit := rcLoop_split t ht ((l.length + 61 - 1) / 61 / 2)
          (l.take ((l.length + 61 - 1) / 61 / 2 * 61))
          (l.drop ((l.length + 61 - 1) / 61 / 2 * 61))
          (r.take (r.length - (l.length + 61 - 1) / 61 / 2 * 61))
          (r.drop (r.length - (l.length + 61 - 1) / 61 / 2 * 61))
          (by simp; omega) (by simp; omega)
          (fun z hz => hbl z (List.take_subset _ _ hz))
          (fun z hz => hbr z (List.drop_subset _ _ hz))
        rw [List.take_append_drop, List.take_append_drop] at hsplit
        rw [hsplit]

/-- Top-level correctness of `reverse_complement` on a well-formed record
span: the data bytes `D` wrapped at 60 per line, with an arbitrary final
byte `c` standing at the final line-terminator position (the code never
inspects its value: it is dropped, left in place, and re-emitted).  The
result is the wrapped reverse complement with every line boundary at the
same buffer position. -/
theorem reverse_complement_wrapJoin (D : List Nat) (hne : D ≠ [])
    (hb : ∀ z ∈ D, z < 256) (c : Nat) :
    reverse_complement (wrapJoin D ++ [c]) = some (wrapJoin (revcomp D) ++ [c]) := by
  rw [reverse_complement]
  rw [if_neg (by simp)]
  have hlen : (wrapJoin D ++ [c]).length - 1 = (wrapJoin D).length := by simp
  simp only [hlen]
  have htake : (wrapJoin D ++ [c]).take (wrapJoin D).length = wrapJoin D :=
    List.take_left _ _
  have hdrop : (wrapJoin D ++ [c]).drop (wrapJoin D).length = [c] :=
    List.drop_left _ _
  rw [htake, hdrop]
  rw [reverse_complement_left_right_eq ((wrapJoin D).length % 61) (by omega)
      ((wrapJoin D).length / 2)
      ((wrapJoin D).take ((wrapJoin D).length / 2))
      ((wrapJoin D).drop ((wrapJoin D).length / 2))
      (by simp; omega) (by simp; omega)
      (fun z hz => wrapJoin_bytes hb z (List.take_subset _ _ hz))
      (fun z hz => wrapJoin_bytes hb z (List.drop_subset _ _ hz))]
  rw [rcLoop_master D.length D rfl hne hb]
  simp

theorem memchr_of_not_mem {c : Nat} : ∀ {l : List Nat}, c ∉ l → memchr c l = none := by
  intro l
  induction l with
  | nil => intro _; rfl
  | cons x xs ih =>
    intro h
    rw [memchr]
    rw [if_neg (by intro hz; exact h (by rw [hz]; exact List.mem_cons_self c xs))]
    rw [ih (fun hz => h (List.mem_cons_of_mem x hz))]
    rfl

theorem memchr_first {c : Nat} : ∀ (u w : List Nat), c ∉ u →
    memchr c (u ++ c :: w) = some u.length := by
  intro u
  induction u with
  | nil =>
    intro w _
    rw [List.nil_append, memchr, if_pos rfl]
    rfl
  | cons x xs ih =>
    intro w h
    rw [List.cons_append, memchr]
    rw [if_neg (by intro hz; exact h (by rw [hz]; exact List.mem_cons_self c xs))]
    rw [ih w (fun hz => h (List.mem_cons_of_mem x hz))]
    rfl

/-- One record rendered into the buffer: header bytes then sequence bytes. -/
def renderRecords : List (List Nat × List Nat) → List Nat
  | [] => []
  | (h, s) :: rest => h ++ s ++ renderRecords rest

/-- The per-record transform the spec describes: each header copied through
unchanged, each sequence span transformed independently of all other
records. -/
def transformRecords : List (List Nat × List Nat) → Option (List Nat)
  | [] => some []
  | (h, s) :: rest =>
    match reverse_complement s, transformRecords rest with
    | some s2, some r2 => some (h ++ s2 ++ r2)
    | _, _ => none

/-- Well-formedness of one record for the splitter: the header starts with
`>` (62), ends with its newline (10), has no interior newline; the sequence
bytes contain no `>`. -/
def recordOk (p : List Nat × List Nat) : Prop :=
  (∃ hd, p.1 = 62 :: hd ++ [10] ∧ 10 ∉ hd) ∧ 62 ∉ p.2

/-- The splitter processes each record independently: headers pass through
untouched, every sequence span is transformed in place, and the records
appear in the output in their original order. -/
theorem split_and_reverse_records : ∀ (rs : List (List Nat × List Nat)),
    (∀ p ∈ rs, recordOk p) →
    split_and_reverse (renderRecords rs) = transformRecords rs := by
  intro rs
  induction rs with
  | nil =>
    intro _
    rw [split_and_reverse]
    rfl
  | cons p rs2 ih =>
    intro hwf
    rcases p with ⟨h, s⟩
    obtain ⟨⟨hd, hh0, hhd⟩, hs620⟩ := hwf (h, s) (List.mem_cons_self _ rs2)
    have hh : h = 62 :: hd ++ [10] := hh0
    have hs62 : 62 ∉ s := hs620
    have hdata : renderRecords ((h, s) :: rs2)
        = (62 :: hd) ++ 10 :: (s ++ renderRecords rs2) := by
      rw [renderRecords, hh]
      simp
    rw [hdata]
    rw [split_and_reverse]
    rw [memchr_first (62 :: hd) (s ++ renderRecords rs2) (by
      intro hz
      rcases List.mem_cons.mp hz with h1 | h2
      · omega
      · exact hhd h2)]
    split
    · rename_i heq
      simp at heq
    · rename_i i heq
      have hi : i = hd.length + 1 := by
        simp at heq
        omega
      subst hi
      have hpre : List.take (hd.length + 1 + 1)
          (62 :: hd ++ 10 :: (s ++ renderRecords rs2)) = 62 :: hd ++ [10] := by
        have hsh : (62 : Nat) :: hd ++ 10 :: (s ++ renderRecords rs2)
            = 62 :: ((hd ++ [10]) ++ (s ++ renderRecords rs2)) := by simp
        rw [hsh, List.take_succ_cons]
        congr 1
        apply List.take_left'
        simp
      have hrest : List.drop (hd.length + 1 + 1)
          (62 :: hd ++ 10 :: (s ++ renderRecords rs2)) = s ++ renderRecords rs2 := by
        have hsh : (62 : Nat) :: hd ++ 10 :: (s ++ renderRecords rs2)
            = 62 :: ((hd ++ [10]) ++ (s ++ renderRecords rs2)) := by simp
        rw [hsh, List.drop_succ_cons]
        apply List.drop_left'
        simp
      simp only [hpre, hrest]
      cases rs2 with
      | nil =>
        have hzz : s ++ renderRecords ([] : List (List Nat × List Nat)) = s := by
          rw [renderRecords]
          simp
        rw [hzz]
        have hmem : memchr 62 s = none := memchr_of_not_mem hs62
        split
        · rw [← hh]
          cases hrc : reverse_complement s with
          | none => simp [transformRecords, hrc]
          | some v => simp [transformRecords, hrc]
        · rename_i j heq2
          rw [hmem] at heq2
          exact absurd heq2 (by simp)
      | cons p2 rs3 =>
        rcases p2 with ⟨h2, s2⟩
        obtain ⟨⟨hd2, hh20, hhd2⟩, hs6220⟩ :=
          hwf (h2, s2) (List.mem_cons_of_mem _ (List.mem_cons_self _ rs3))
        have hh2 : h2 = 62 :: hd2 ++ [10] := hh20
        have hR : renderRecords ((h2, s2) :: rs3)
            = 62 :: (hd2 ++ [10] ++ (s2 ++ renderRecords rs3)) := by
          rw [renderRecords, hh2]
          simp
        have hm2 : memchr 62 (s ++ renderRecords ((h2, s2) :: rs3)) = some s.length := by
          rw [hR]
          exact memchr_first s _ hs62
        split
        · rename_i heq2
          rw [hm2] at heq2
          exact absurd heq2 (by simp)
        · rename_i j heq2
          rw [hm2] at heq2
          have hj : j = s.length := by
            simp at heq2
            omega
          subst hj
          have hhead : List.take s.length (s ++ renderRecords ((h2, s2) :: rs3)) = s :=
            List.take_left _ _
          have htail : List.drop s.length (s ++ renderRecords ((h2, s2) :: rs3))
              = renderRecords ((h2, s2) :: rs3) := List.drop_left _ _
          rw [hhead, htail]
          rw [ih (fun q hq => hwf q (List.mem_cons_of_mem _ hq))]
          rw [← hh]
          rfl

theorem revcomp_revcomp {D : List Nat} (h : ∀ z ∈ D, cpl8 (cpl8 z) = z) :
    revcomp (revcomp D) = D := by
  simp only [revcomp, List.map_reverse, List.reverse_reverse, List.map_map]
  have hgen : ∀ l : List Nat, (∀ z ∈ l, cpl8 (cpl8 z) = z) →
      l.map (cpl8 ∘ cpl8) = l := by
    intro l
    induction l with
    | nil => intro _; rfl
    | cons x xs ih =>
      intro hx
      simp only [List.map_cons]
      rw [ih (fun z hz => hx z (List.mem_cons_of_mem x hz))]
      have : (cpl8 ∘ cpl8) x = x := hx x (List.mem_cons_self x xs)
      rw [this]
  exact hgen D h

theorem rcLoopThreshold_one_diverges :
    ∀ fuel, rcLoopThreshold 1 fuel 4 [65, 65] [67, 71] = none := by
  intro fuel
  induction fuel with
  | zero => rfl
  | succ n ih =>
    have hstep : rcLoopThreshold 1 (n + 1) 4 [65, 65] [67, 71]
        = match rcLoopThreshold 1 n 4 [65, 65] [67, 71],
                rcLoopThreshold 1 n 4 [] [] with
          | some pa, some pb => some (pb.1 ++ pa.1, pa.2 ++ pb.2)
          | _, _ => none := rfl
    rw [hstep, ih]

/-! ### Claim theorems -/

/-- C1: for every record sequence span made of newline-terminated lines of
60 data bytes each with a possibly shorter newline-terminated final line
(`wrapJoin D ++ [10]` for nonempty data `D` of non-newline bytes),
`reverse_complement` mutates the span so that the data bytes become the
byte-wise complement (per the 8-bit table) of the reversal of the original
data bytes, and every newline byte stays at the same position within the
span (the output is the same 60-wide wrap of the transformed data). -/
theorem C1_wrapped_span_reverse_complement (D : List Nat) (hne : D ≠ [])
    (hb : ∀ z ∈ D, z < 256) (hnl : ∀ z ∈ D, z ≠ 10) :
    reverse_complement (wrapJoin D ++ [10]) = some (wrapJoin (revcomp D) ++ [10]) :=
  reverse_complement_wrapJoin D hne hb 10

/-- Witness for C1 at the concrete record data "AACG" (spec scenario:
">ONE
AACG
" gives sequence output "CGTT
"). -/
theorem C1_witness :
    (([65, 65, 67, 71] : List Nat) ≠ []
      ∧ (∀ z ∈ ([65, 65, 67, 71] : List Nat), z < 256)
      ∧ (∀ z ∈ ([65, 65, 67, 71] : List Nat), z ≠ 10))
    ∧ reverse_complement (wrapJoin [65, 65, 67, 71] ++ [10])
      = some (wrapJoin (revcomp [65, 65, 67, 71]) ++ [10]) :=
  ⟨⟨by simp, by decide, by decide⟩,
   C1_wrapped_span_reverse_complement [65, 65, 67, 71] (by simp) (by decide) (by decide)⟩

/-- C2 (code bug evidence): the code handles empty input, but an empty
sequence span panics.  `reverse_complement` computes `seq.len() - 1` on the
empty span, which underflows and the subsequent slicing panics (modelled as
`none`): the input ">EMPTY\n" (header at end of file) and the input
">E\n>T\nAC\n" (consecutive headers) both crash instead of passing the
header through unchanged. -/
theorem C2_empty_record_panics :
    split_and_reverse [] = some []
    ∧ split_and_reverse [62, 69, 77, 80, 84, 89, 10] = none
    ∧ split_and_reverse [62, 69, 10, 62, 84, 10, 65, 67, 10] = none := by
  refine ⟨?_, ?_, ?_⟩
  · rw [split_and_reverse]
    rfl
  · rw [split_and_reverse]
    simp [memchr, reverse_complement]
  · rw [split_and_reverse]
    simp [memchr, reverse_complement]

/-- C3 counterexample: the transform is not its own inverse on every valid
sequence.  The single-base sequence "u" maps to "A", which maps to "T", not
back to "u" (the table sends U/u to A, and lowercase codes to uppercase
complements). -/
theorem C3_involution_counterexample :
    reverse_complement [117, 10] = some [65, 10]
    ∧ reverse_complement [65, 10] = some [84, 10]
    ∧ (some [84, 10] : Option (List Nat)) ≠ some [117, 10] := by
  refine ⟨?_, ?_, by simp⟩
  · have hh := reverse_complement_wrapJoin [117] (by simp) (by decide) 10
    rw [wrapJoin_of_le (by simp)] at hh
    rw [show revcomp [117] = [65] from rfl] at hh
    rw [wrapJoin_of_le (by simp)] at hh
    exact hh
  · have hh := reverse_complement_wrapJoin [65] (by simp) (by decide) 10
    rw [wrapJoin_of_le (by simp)] at hh
    rw [show revcomp [65] = [84] from rfl] at hh
    rw [wrapJoin_of_le (by simp)] at hh
    exact hh

/-- C3 amended: the transform is its own inverse on every valid wrapped
sequence whose bases are fixed points of the double complement — that is,
sequences avoiding the lowercase codes and U/u (for example the uppercase
codes A, C, G, T, M, R, W, S, Y, K, V, H, D, B, N and all
out-of-alphabet bytes). -/
theorem C3_involution_amended (D : List Nat) (hne : D ≠ [])
    (hb : ∀ z ∈ D, z < 256 ∧ cpl8 (cpl8 z) = z) :
    (reverse_complement (wrapJoin D ++ [10])).bind reverse_complement
      = some (wrapJoin D ++ [10]) := by
  rw [reverse_complement_wrapJoin D hne (fun z hz => (hb z hz).1) 10]
  simp only [Option.some_bind]
  have hrne : revcomp D ≠ [] := by
    intro hz
    have hlz := congrArg List.length hz
    rw [revcomp_length] at hlz
    simp at hlz
    exact hne hlz
  rw [reverse_complement_wrapJoin (revcomp D) hrne
      (revcomp_lt256 (fun z hz => (hb z hz).1)) 10]
  rw [revcomp_revcomp (fun z hz => (hb z hz).2)]

/-- Witness for C3 (amended) at the sequence "AC". -/
theorem C3_witness :
    (([65, 67] : List Nat) ≠ []
      ∧ (∀ z ∈ ([65, 67] : List Nat), z < 256 ∧ cpl8 (cpl8 z) = z))
    ∧ (reverse_complement (wrapJoin [65, 67] ++ [10])).bind reverse_complement
      = some (wrapJoin [65, 67] ++ [10]) :=
  ⟨⟨by simp, by decide⟩, C3_involution_amended [65, 67] (by simp) (by decide)⟩

/-- C4 counterexample: double complement is not the identity on every byte
with an explicit table entry.  U (85) maps to A maps to T, and lowercase a
(97) maps to T maps back to uppercase A, not to a. -/
theorem C4_pairing_counterexample :
    cpl8 (cpl8 85) ≠ 85 ∧ cpl8 (cpl8 97) ≠ 97 := by decide

/-- C4 amended: double complement is the identity on the uppercase explicit
codes other than U; the uppercase self-complementary codes W, S, N are fixed
points of a single complement; U and u map to A (one-directional); every
lowercase explicit code has the same complement as its uppercase form, so
its double complement yields the uppercase code, not the lowercase input. -/
theorem C4_complement_pairing_amended :
    (([65, 67, 71, 84, 77, 82, 87, 83, 89, 75, 86, 72, 68, 66, 78] : List Nat).all
        fun b => cpl8 (cpl8 b) == b) = true
    ∧ cpl8 87 = 87 ∧ cpl8 83 = 83 ∧ cpl8 78 = 78
    ∧ cpl8 85 = 65 ∧ cpl8 117 = 65
    ∧ (([97, 99, 103, 116, 109, 114, 119, 115, 121, 107, 118, 104, 100, 98, 110] :
        List Nat).all fun b => cpl8 b == cpl8 (b - 32)) = true := by decide

/-- C5 counterexample: with the threshold set to 1 the recursion never
terminates on a small span (the line-aligned midpoint of a sub-line slice is
0, so the recursion repeats with identical arguments; `none` = out of fuel
at every fuel), while the sequential side produces output. -/
theorem C5_threshold_counterexample :
    rcLoopThreshold 1 1000 4 [65, 65] [67, 71] = none
    ∧ (rcLoopThreshold 2048 1000 4 [65, 65] [67, 71]).isSome = true := by
  constructor
  · exact rcLoopThreshold_one_diverges 1000
  · rfl

/-- C5 amended: the sequential/parallel threshold is a pure performance knob
for every threshold of at least one full line (61 bytes): any two such
thresholds (with sufficient fuel) produce identical results, both equal to
the purely sequential computation. -/
theorem C5_threshold_independence_amended (thr1 thr2 fuel1 fuel2 t : Nat)
    (l r : List Nat) (h1 : 61 ≤ thr1) (h2 : 61 ≤ thr2) (ht : t ≤ 60)
    (hf1 : l.length ≤ fuel1) (hf2 : l.length ≤ fuel2) (hlr : l.length ≤ r.length)
    (hbl : ∀ z ∈ l, z < 256) (hbr : ∀ z ∈ r, z < 256) :
    rcLoopThreshold thr1 fuel1 t l r = rcLoopThreshold thr2 fuel2 t l r
    ∧ rcLoopThreshold thr1 fuel1 t l r = some (rcLoop t l r) := by
  have e1 := rcLoopThreshold_eq thr1 h1 t ht fuel1 l r hf1 hlr hbl hbr
  have e2 := rcLoopThreshold_eq thr2 h2 t ht fuel2 l r hf2 hlr hbl hbr
  exact ⟨by rw [e1, e2], e1⟩

/-- Witness for C5 (amended) at thresholds 61 and 2048 on a 4-byte span. -/
theorem C5_witness :
    (61 ≤ 61 ∧ 61 ≤ 2048 ∧ 4 ≤ 60 ∧ ([65, 65] : List Nat).length ≤ 10
      ∧ ([65, 65] : List Nat).length ≤ 20
      ∧ ([65, 65] : List Nat).length ≤ ([67, 71] : List Nat).length
      ∧ (∀ z ∈ ([65, 65] : List Nat), z < 256)
      ∧ (∀ z ∈ ([67, 71] : List Nat), z < 256))
    ∧ rcLoopThreshold 61 10 4 [65, 65] [67, 71] = rcLoopThreshold 2048 20 4 [65, 65] [67, 71]
    ∧ rcLoopThreshold 61 10 4 [65, 65] [67, 71] = some (rcLoop 4 [65, 65] [67, 71]) :=
  ⟨⟨by decide, by decide, by decide, by decide, by decide, by decide, by decide, by decide⟩,
   C5_threshold_independence_amended 61 2048 10 20 4 [65, 65] [67, 71]
     (by decide) (by decide) (by decide) (by decide) (by decide) (by decide)
     (by decide) (by decide)⟩

/-- C6 counterexample: when the final newline is missing, the record is NOT
transformed into the reverse complement of all of its base characters.  On
the span "AACG" (no trailing newline) the code treats the final G as the
line terminator: the output is "GTTG" (last byte left in place, first three
bytes reverse-complemented), not "CGTT". -/
theorem C6_missing_newline_counterexample :
    reverse_complement [65, 65, 67, 71] = some [71, 84, 84, 71]
    ∧ (some [71, 84, 84, 71] : Option (List Nat)) ≠ some [67, 71, 84, 84] := by
  constructor
  · have hh := reverse_complement_wrapJoin [65, 65, 67] (by simp) (by decide) 71
    rw [wrapJoin_of_le (by simp)] at hh
    rw [show revcomp [65, 65, 67] = [71, 84, 84] from rfl] at hh
    rw [wrapJoin_of_le (by simp)] at hh
    exact hh
  · simp

/-- C6 amended: when the final record ends at end-of-file without a
terminating newline, no error is raised, but the LAST byte of the span is
treated as if it were the line terminator: it stays in place unchanged and
is excluded from the transform, and only the remaining bytes are
reverse-complemented (with line boundaries preserved). -/
theorem C6_missing_newline_amended (D : List Nat) (c : Nat) (hne : D ≠ [])
    (hb : ∀ z ∈ D, z < 256) :
    reverse_complement (wrapJoin D ++ [c]) = some (wrapJoin (revcomp D) ++ [c]) :=
  reverse_complement_wrapJoin D hne hb c

/-- Witness for C6 (amended): the span "AACG" with the data byte G standing
at the terminator position. -/
theorem C6_witness :
    (([65, 65, 67] : List Nat) ≠ [] ∧ (∀ z ∈ ([65, 65, 67] : List Nat), z < 256))
    ∧ reverse_complement (wrapJoin [65, 65, 67] ++ [71])
      = some (wrapJoin (revcomp [65, 65, 67]) ++ [71]) :=
  ⟨⟨by simp, by decide⟩, C6_missing_newline_amended [65, 65, 67] 71 (by simp) (by decide)⟩

/-- C7: the 16-bit table maps the packed pair whose first in-memory byte is
`b0` and second is `b1` (word `b1 * 256 + b0`) to the word
`cpl8 b0 * 256 + cpl8 b1`, whose in-memory bytes are `cpl8 b1` then
`cpl8 b0`: one 16-bit lookup complements both bytes and reverses their
order. -/
theorem C7_table16_pairing (b0 b1 : Nat) (h0 : b0 < 256) (h1 : b1 < 256) :
    cpl16 (b1 * 256 + b0) = cpl8 b0 * 256 + cpl8 b1 := by
  unfold cpl16
  have e0 : (b1 * 256 + b0) % 256 = b0 := by omega
  have e1 : (b1 * 256 + b0) / 256 = b1 := by omega
  rw [e0, e1]

/-- Witness for C7 at the byte pair (A, C). -/
theorem C7_witness :
    ((65 : Nat) < 256 ∧ (67 : Nat) < 256)
    ∧ cpl16 (67 * 256 + 65) = cpl8 65 * 256 + cpl8 67 :=
  ⟨⟨by decide, by decide⟩, C7_table16_pairing 65 67 (by decide) (by decide)⟩

set_option maxRecDepth 10000 in
/-- C8: every byte value 0..255 without an explicit IUPAC entry in the
table is mapped to itself, and a sequence containing out-of-alphabet bytes
(here "QX") is processed without error, the unknown bytes passing through
the identity branch (reverse only, values unchanged). -/
theorem C8_identity_outside_alphabet :
    ((List.range 256).all fun b =>
        ([65, 97, 67, 99, 71, 103, 84, 116, 85, 117, 77, 109, 82, 114, 87, 119,
          83, 115, 89, 121, 75, 107, 86, 118, 72, 104, 68, 100, 66, 98, 78, 110] :
          List Nat).contains b || (cpl8 b == b)) = true
    ∧ reverse_complement [81, 88, 10] = some [88, 81, 10] := by
  constructor
  · decide
  · have hh := reverse_complement_wrapJoin [81, 88] (by simp) (by decide) 10
    rw [wrapJoin_of_le (by simp)] at hh
    rw [show revcomp [81, 88] = [88, 81] from rfl] at hh
    rw [wrapJoin_of_le (by simp)] at hh
    exact hh

/-- C9: records are isolated.  On a buffer of well-formed records, the
program's output equals the per-record transform: each header is copied
through unchanged and each sequence span depends only on its own record; in
particular swapping two records swaps the transformed records. -/
theorem C9_record_isolation (rs : List (List Nat × List Nat))
    (hwf : ∀ p ∈ rs, recordOk p) :
    split_and_reverse (renderRecords rs) = transformRecords rs :=
  split_and_reverse_records rs hwf

/-- Witness for C9 at the two-record buffer ">O\nAC\n>T\nG\n". -/
theorem C9_witness :
    (∀ p ∈ ([(([62, 79, 10] : List Nat), ([65, 67, 10] : List Nat)),
             ([62, 84, 10], [71, 10])] : List (List Nat × List Nat)), recordOk p)
    ∧ split_and_reverse (renderRecords
        [(([62, 79, 10] : List Nat), ([65, 67, 10] : List Nat)),
         ([62, 84, 10], [71, 10])])
      = transformRecords
        [(([62, 79, 10] : List Nat), ([65, 67, 10] : List Nat)),
         ([62, 84, 10], [71, 10])] := by
  have hwf : ∀ p ∈ ([(([62, 79, 10] : List Nat), ([65, 67, 10] : List Nat)),
      ([62, 84, 10], [71, 10])] : List (List Nat × List Nat)), recordOk p := by
    intro p hp
    rcases List.mem_cons.mp hp with h1 | h2
    · subst h1
      exact ⟨⟨[79], rfl, by decide⟩, by decide⟩
    · rcases List.mem_cons.mp h2 with h3 | h4
      · subst h3
        exact ⟨⟨[84], rfl, by decide⟩, by decide⟩
      · simp at h4
  exact ⟨hwf, C9_record_isolation _ hwf⟩

/-- C10: if the input contains no newline byte at all, the program performs
no transformation and writes the input bytes out completely unchanged,
without failing. -/
theorem C10_no_newline_passthrough (data : List Nat) (h : memchr 10 data = none) :
    split_and_reverse data = some data := by
  rw [split_and_reverse]
  split
  · rfl
  · rename_i i heq
    rw [h] at heq
    exact absurd heq (by simp)

/-- Witness for C10 at the newline-free buffer ">A". -/
theorem C10_witness :
    memchr 10 [62, 65] = none ∧ split_and_reverse [62, 65] = some [62, 65] :=
  ⟨by decide, C10_no_newline_passthrough [62, 65] (by decide)⟩

end RevComp
